import Mathlib

/-!
Verification of `compare_sha384.py`, a differential-testing harness for
SHA-384 implementations.  The Python source is shallowly embedded below:
byte strings become `List Nat` (each entry `< 256`), text becomes
`List Char`, and each Python function becomes a Lean definition with the
same name where possible.  Theorems then settle the specification's
claims about padding, hex-word encoding, vector serialization, output
parsing, reconciliation, and the simulator driver.
-/

/-- Embedding of Python `int.to_bytes(n, 'big')`: the `n` low-order bytes
of `v`, most significant first.  (Python raises `OverflowError` when `v`
does not fit in `n` bytes; the embedding is used under that bound.) -/

def toBytesBE : Nat → Nat → List Nat
  | 0, _ => []
  | n + 1, v => toBytesBE n (v / 256) ++ [v % 256]

/-- Embedding of Python `int.from_bytes(l, 'big')`. -/
def fromBytesBE (l : List Nat) : Nat :=
  l.foldl (fun a b => 256 * a + b) 0

/-- Lowercase hexadecimal digits of `v`, most significant first, no
leading zeros (`"0"` for zero).  `fuel ≥ v` guarantees full unfolding. -/
def hexDigitsAux : Nat → Nat → List Char
  | 0, v => [Nat.digitChar (v % 16)]
  | fuel + 1, v =>
    if v < 16 then [Nat.digitChar v]
    else hexDigitsAux fuel (v / 16) ++ [Nat.digitChar (v % 16)]

/-- Embedding of the Python format expression `f"{v:016x}"`: lowercase
hex rendering of `v`, zero-padded on the left to a minimum width of 16. -/
def pyHexPad16 (v : Nat) : List Char :=
  List.replicate (16 - (hexDigitsAux v v).length) '0' ++ hexDigitsAux v v

/-- Embedding of `bytes_to_hex_words` (src/compare_sha384.py:34-40): the
loop `for i in range(0, len(data), 8)` visits offsets `8*k` for
`k < ceil(len(data)/8)` and formats `int.from_bytes(data[i:i+8],'big')`
with `f"{word:016x}"`. -/
def bytes_to_hex_words (data : List Nat) : List (List Char) :=
  (List.range ((data.length + 7) / 8)).map fun k =>
    pyHexPad16 (fromBytesBE ((data.drop (8 * k)).take 8))

/-- Embedding of the zero-fill loop of `pad_message`
(src/compare_sha384.py:27-28): `while (len(padded) % 128) != 112:
padded += b'\x00'`.  Well-founded recursion on the distance to the
target residue 112 modulo 128. -/
def padZeroLoop (padded : List Nat) : List Nat :=
  if h : padded.length % 128 = 112 then padded
  else padZeroLoop (padded ++ [0])
termination_by (240 - padded.length % 128) % 128
decreasing_by
  simp only [List.length_append, List.length_cons, List.length_nil]
  omega

/-- Embedding of `pad_message` (src/compare_sha384.py:22-31): append
`0x80`, zero-fill to residue 112 mod 128, append `(0).to_bytes(8,'big')`
and `bit_len.to_bytes(8,'big')` where `bit_len = len(data) * 8`. -/
def pad_message (data : List Nat) : List Nat :=
  padZeroLoop (data ++ [0x80]) ++ toBytesBE 8 0 ++ toBytesBE 8 (data.length * 8)

/-- Embedding of the block-splitting comprehension in `main`
(src/compare_sha384.py:134): `[padded[j:j+128] for j in
range(0, len(padded), 128)]`. -/
def split_blocks (padded : List Nat) : List (List Nat) :=
  (List.range ((padded.length + 127) / 128)).map fun k =>
    (padded.drop (128 * k)).take 128

/-- Numeric value of a lowercase hexadecimal digit character. -/
def hexCharVal (c : Char) : Nat :=
  if '0' ≤ c ∧ c ≤ '9' then c.toNat - 48
  else if 'a' ≤ c ∧ c ≤ 'f' then c.toNat - 87
  else 0

/-- Parse a string of lowercase hexadecimal digits as an integer. -/
def parseHexNat (s : List Char) : Nat :=
  s.foldl (fun a c => 16 * a + hexCharVal c) 0

/-- Whether `c` is a lowercase hexadecimal digit character. -/
def isHexLowerChar (c : Char) : Bool :=
  decide (('0' ≤ c ∧ c ≤ '9') ∨ ('a' ≤ c ∧ c ≤ 'f'))

/-- Decimal digits of `v`, most significant first, for Python `str(v)`;
`fuel ≥ v` guarantees full unfolding. -/
def decDigitsAux : Nat → Nat → List Char
  | 0, v => [Nat.digitChar (v % 10)]
  | fuel + 1, v =>
    if v < 10 then [Nat.digitChar v]
    else decDigitsAux fuel (v / 10) ++ [Nat.digitChar (v % 10)]

/-- Embedding of Python `str(n)` for a natural number. -/
def natRepr (n : Nat) : List Char :=
  decDigitsAux n n

/-- Number of `0x00` filler bytes appended by the zero-fill loop of
`pad_message` for a message of byte length `msgLen` (closed form). -/
def numZeros (msgLen : Nat) : Nat :=
  (240 - (msgLen + 1) % 128) % 128

/-- Modelled from the spec (refinement comparison): `encode_words`
should fail with `InvalidBlockSizeError` (here `none`) on any input not
exactly 128 bytes, and otherwise return the 16 hex words. -/
def encode_words_specOpt (data : List Nat) : Option (List (List Char)) :=
  if data.length = 128 then some (bytes_to_hex_words data) else none

/-- Modelled from the spec (refinement comparison): `split_blocks`
should fail with `MalformedLengthError` (here `none`) when the input
length is not a multiple of 128, and otherwise return the windows. -/
def split_blocks_specOpt (padded : List Nat) : Option (List (List Nat)) :=
  if padded.length % 128 = 0 then some (split_blocks padded) else none

-- Embedding of the result parser in `run_vhdl_test`
-- (src/compare_sha384.py:94-104).

/-- Python substring containment `pat in s` over character lists. -/
def containsTok (pat : List Char) : List Char → Bool
  | [] => pat.isEmpty
  | c :: rest => pat.isPrefixOf (c :: rest) || containsTok pat rest

/-- Helper for `pySplit`; `fuel ≥ s.length` guarantees full unfolding. -/
def pySplitAux (sep : List Char) : Nat → List Char → List Char → List (List Char)
  | _, acc, [] => [acc.reverse]
  | 0, acc, s => [acc.reverse ++ s]
  | fuel + 1, acc, c :: rest =>
    if sep ≠ [] ∧ sep.isPrefixOf (c :: rest) then
      acc.reverse :: pySplitAux sep fuel [] ((c :: rest).drop sep.length)
    else
      pySplitAux sep fuel (c :: acc) rest

/-- Embedding of Python `s.split(sep)` for a non-empty separator:
non-overlapping left-to-right splitting, keeping empty fields. -/
def pySplit (sep s : List Char) : List (List Char) :=
  pySplitAux sep s.length [] s

/-- Python `str.strip()` whitespace class (ASCII part). -/
def pyIsSpace (c : Char) : Bool :=
  c = ' ' || c = '\t' || c = '\n' || c = '\r' || c = '\x0b' || c = '\x0c'

/-- Embedding of Python `s.strip()`. -/
def pyStrip (s : List Char) : List Char :=
  ((s.dropWhile pyIsSpace).reverse.dropWhile pyIsSpace).reverse

/-- Embedding of Python `s.lower()` (ASCII letters). -/
def pyLower (s : List Char) : List Char :=
  s.map Char.toLower

/-- Per-variant parsed results, the dict built at
src/compare_sha384.py:94. -/
structure ParsedResults where
  passed : Nat
  failed : Nat
  hashes : List (List Char)
deriving DecidableEq

def passTok : List Char := "PASS".toList

def failTok : List Char := "FAIL".toList

def hashTok : List Char := "Hash:".toList

/-- Embedding of the per-line `if/elif` chain of the result parser
(src/compare_sha384.py:96-104). -/
def parseLine (res : ParsedResults) (line : List Char) : ParsedResults :=
  if containsTok passTok line then { res with passed := res.passed + 1 }
  else if containsTok failTok line then { res with failed := res.failed + 1 }
  else if containsTok hashTok line then
    let parts := pySplit hashTok line
    if parts.length > 1 then
      { res with hashes := res.hashes ++ [pyLower (pyStrip (parts.getD 1 []))] }
    else res
  else res

/-- Embedding of the result-parsing loop over `output.split('\n')`
(src/compare_sha384.py:94-104). -/
def parse_results (output : List Char) : ParsedResults :=
  (pySplit ['\n'] output).foldl parseLine ⟨0, 0, []⟩

/-- The value the parser appends for a `Hash:` line: the field between
the first and second occurrences of `"Hash:"`, stripped and lowered. -/
def hashFieldOf (line : List Char) : List Char :=
  pyLower (pyStrip ((pySplit hashTok line).getD 1 []))

/-- Modelled from the spec (refinement comparison): the claim's
extraction rule, the entire substring following the first occurrence of
the token. -/
def afterFirstTok (pat : List Char) : List Char → List Char
  | [] => []
  | c :: rest =>
    if pat.isPrefixOf (c :: rest) then (c :: rest).drop pat.length
    else afterFirstTok pat rest

/-- A generated test case as the tuple `(name, blocks, expected_hash)`
built in `main` (src/compare_sha384.py:137). -/
structure TestCase where
  name : List Char
  blocks : List (List Nat)
  expected : List Char
deriving DecidableEq

/-- The six expected-digest lines of `write_test_vectors`
(src/compare_sha384.py:58-59): `expected_hash[i:i+16]` for
`i in range(0, 96, 16)`. -/
def digestLines (expected : List Char) : List (List Char) :=
  [0, 16, 32, 48, 64, 80].map fun i => (expected.drop i).take 16

/-- The lines emitted for one test case by `write_test_vectors`
(src/compare_sha384.py:49-59): the block count, then the 16 words of
each block, then the six digest lines. -/
def caseLines (c : TestCase) : List (List Char) :=
  natRepr c.blocks.length ::
    ((c.blocks.map bytes_to_hex_words).flatten ++ digestLines c.expected)

/-- Embedding of `write_test_vectors` (src/compare_sha384.py:43-59) as
the list of lines written to the file: the test count first, then each
case's lines in emission order. -/
def write_test_vectors (cases : List TestCase) : List (List Char) :=
  natRepr cases.length :: (cases.map caseLines).flatten

/-- A variant's result dict in `main`: either `{"error": msg}` or the
parsed results (src/compare_sha384.py:79,85,94). -/
inductive RunOutcome where
  | err (msg : List Char)
  | res (r : ParsedResults)
deriving DecidableEq

/-- Embedding of `results.get('hashes', [])`
(src/compare_sha384.py:178-179): an error dict has no `hashes` key. -/
def getHashes : RunOutcome → List (List Char)
  | .err _ => []
  | .res r => r.hashes

/-- Embedding of the `"error" in results` test
(src/compare_sha384.py:158,165,191). -/
def hasError : RunOutcome → Bool
  | .err _ => true
  | .res _ => false

/-- Embedding of `i < len(results.get('hashes', [])) and
results['hashes'][i] == py_hash` (src/compare_sha384.py:178-179). -/
def variantOk (o : RunOutcome) (i : Nat) (expected : List Char) : Bool :=
  decide (i < (getHashes o).length) && decide ((getHashes o).getD i [] = expected)

/-- Embedding of `status = "OK" if (baseline_ok and fast_ok)`
(src/compare_sha384.py:181) as a Boolean: `true` is `"OK"`. -/
def statusOK (b f : RunOutcome) (i : Nat) (expected : List Char) : Bool :=
  variantOk b i expected && variantOk f i expected

/-- Embedding of the summary loop (src/compare_sha384.py:175-184): the
`all_match` flag starts `True` and is cleared on any `MISMATCH` index. -/
def all_match (cases : List TestCase) (b f : RunOutcome) : Bool :=
  cases.enum.foldl (fun acc ic => acc && statusOK b f ic.1 ic.2.expected) true

/-- Embedding of the final verdict (src/compare_sha384.py:191-196):
exit code 0 iff `all_match` and neither result dict has an `"error"`
key, else 1. -/
def mainExitCode (cases : List TestCase) (b f : RunOutcome) : Nat :=
  if all_match cases b f && !(hasError b || hasError f) then 0 else 1

/-- Outcome of one completed `subprocess.run` call: exit status plus
captured output texts. -/
structure ProcResult where
  returncode : Int
  stdout : List Char
  stderr : List Char
deriving DecidableEq

/-- Outcome of the run phase, the only call given `timeout=30`
(src/compare_sha384.py:89): it either completes or hits the timeout,
in which case Python raises `subprocess.TimeoutExpired`. -/
inductive RunPhaseOutcome where
  | completed (p : ProcResult)
  | timedOut
deriving DecidableEq

/-- The three subprocess phases of `run_vhdl_test`. -/
inductive Phase where
  | compileP
  | elaborateP
  | runP
deriving DecidableEq

/-- Python exceptions that can escape `run_vhdl_test`. -/
inductive PyExn where
  | timeoutExpired
deriving DecidableEq

/-- Embedding of `run_vhdl_test` (src/compare_sha384.py:62-106) over an
environment giving each phase's subprocess outcome.  Returns the
function's result — a normal dict or an uncaught exception, since no
handler exists for `TimeoutExpired` — paired with the list of phases
actually invoked. -/
def run_vhdl_test (c e : ProcResult) (r : RunPhaseOutcome) :
    Except PyExn RunOutcome × List Phase :=
  if c.returncode ≠ 0 then
    (Except.ok (RunOutcome.err ("Compile failed: ".toList ++ c.stderr)),
      [Phase.compileP])
  else if e.returncode ≠ 0 then
    (Except.ok (RunOutcome.err ("Elaborate failed: ".toList ++ e.stderr)),
      [Phase.compileP, Phase.elaborateP])
  else
    match r with
    | .timedOut =>
      (Except.error PyExn.timeoutExpired,
        [Phase.compileP, Phase.elaborateP, Phase.runP])
    | .completed p =>
      (Except.ok (RunOutcome.res (parse_results (p.stdout ++ p.stderr))),
        [Phase.compileP, Phase.elaborateP, Phase.runP])

/-- Embedding of the sequential run section of `main`
(src/compare_sha384.py:157-164): the baseline variant runs first; an
exception escaping it aborts `main` before the fast variant runs. -/
def mainRunSection (cb eb : ProcResult) (rb : RunPhaseOutcome)
    (cf ef : ProcResult) (rf : RunPhaseOutcome) :
    Except PyExn (RunOutcome × RunOutcome) := do
  let b ← (run_vhdl_test cb eb rb).1
  let f ← (run_vhdl_test cf ef rf).1
  return (b, f)


-- Theorems.

-- Basic lemmas about the byte/hex encodings.

theorem toBytesBE_length (n v : Nat) : (toBytesBE n v).length = n := by
  induction n generalizing v with
  | zero => rfl
  | succ n ih => simp [toBytesBE, ih]

theorem toBytesBE_mem_lt (n v : Nat) : ∀ b ∈ toBytesBE n v, b < 256 := by
  induction n generalizing v with
  | zero => simp [toBytesBE]
  | succ n ih =>
    intro b hb
    simp only [toBytesBE, List.mem_append, List.mem_singleton] at hb
    rcases hb with hb | hb
    · exact ih _ b hb
    · omega

theorem fromBytesBE_append_single (l : List Nat) (b : Nat) :
    fromBytesBE (l ++ [b]) = 256 * fromBytesBE l + b := by
  simp [fromBytesBE, List.foldl_append]

theorem fromBytesBE_toBytesBE (n v : Nat) (h : v < 256 ^ n) :
    fromBytesBE (toBytesBE n v) = v := by
  induction n generalizing v with
  | zero =>
    simp only [toBytesBE]
    simp only [pow_zero, Nat.lt_one_iff] at h
    simp [fromBytesBE, h]
  | succ n ih =>
    simp only [toBytesBE, fromBytesBE_append_single]
    rw [ih (v / 256) (by rw [pow_succ] at h; omega)]
    omega

theorem toBytesBE_fromBytesBE (l : List Nat) (hb : ∀ b ∈ l, b < 256) :
    toBytesBE l.length (fromBytesBE l) = l := by
  induction l using List.reverseRecOn with
  | nil => rfl
  | append_singleton xs b ih =>
    have hbx : ∀ x ∈ xs, x < 256 := fun x hx => hb x (by simp [hx])
    have hblt : b < 256 := hb b (by simp)
    rw [List.length_append, List.length_singleton, fromBytesBE_append_single]
    show toBytesBE (xs.length + 1) _ = _
    rw [toBytesBE]
    have h1 : (256 * fromBytesBE xs + b) / 256 = fromBytesBE xs := by omega
    have h2 : (256 * fromBytesBE xs + b) % 256 = b := by omega
    rw [h1, h2, ih hbx]

theorem fromBytesBE_lt_aux (l : List Nat) (hb : ∀ b ∈ l, b < 256) :
    ∀ a : Nat, l.foldl (fun x y => 256 * x + y) a < 256 ^ l.length * (a + 1) := by
  induction l with
  | nil => intro a; simp
  | cons b l ih =>
    intro a
    have hblt : b < 256 := hb b (by simp)
    have hbx : ∀ x ∈ l, x < 256 := fun x hx => hb x (by simp [hx])
    have h1 := ih hbx (256 * a + b)
    have h2 : 256 ^ l.length * (256 * a + b + 1) ≤ 256 ^ (b :: l).length * (a + 1) := by
      rw [List.length_cons, pow_succ]
      have : 256 * a + b + 1 ≤ 256 * (a + 1) := by omega
      calc 256 ^ l.length * (256 * a + b + 1)
            ≤ 256 ^ l.length * (256 * (a + 1)) := Nat.mul_le_mul_left _ this
        _ = 256 ^ l.length * 256 * (a + 1) := by ring
    exact lt_of_lt_of_le h1 h2

theorem fromBytesBE_lt (l : List Nat) (hb : ∀ b ∈ l, b < 256) :
    fromBytesBE l < 256 ^ l.length := by
  have h := fromBytesBE_lt_aux l hb 0
  simpa [fromBytesBE] using h

theorem hexDigitsAux_chars (fuel v : Nat) :
    ∀ c ∈ hexDigitsAux fuel v, isHexLowerChar c = true := by
  induction fuel generalizing v with
  | zero =>
    intro c hc
    simp only [hexDigitsAux, List.mem_singleton] at hc
    subst hc
    have hlt : v % 16 < 16 := Nat.mod_lt _ (by omega)
    revert hlt
    have : ∀ d, d < 16 → isHexLowerChar (Nat.digitChar d) = true := by decide
    exact this (v % 16)
  | succ fuel ih =>
    intro c hc
    simp only [hexDigitsAux] at hc
    split at hc
    · simp only [List.mem_singleton] at hc
      subst hc
      have : ∀ d, d < 16 → isHexLowerChar (Nat.digitChar d) = true := by decide
      exact this v (by omega)
    · simp only [List.mem_append, List.mem_singleton] at hc
      rcases hc with hc | hc
      · exact ih _ c hc
      · subst hc
        have : ∀ d, d < 16 → isHexLowerChar (Nat.digitChar d) = true := by decide
        exact this (v % 16) (Nat.mod_lt _ (by omega))

theorem hexDigitsAux_length_le (fuel v k : Nat) (hk : 1 ≤ k) (hv : v < 16 ^ k) :
    (hexDigitsAux fuel v).length ≤ k := by
  induction fuel generalizing v k with
  | zero => simp [hexDigitsAux]; omega
  | succ fuel ih =>
    simp only [hexDigitsAux]
    split
    · simp; omega
    · rename_i hge
      have hk2 : 2 ≤ k := by
        by_contra hcon
        have : k = 1 := by omega
        subst this
        simp only [pow_one] at hv
        omega
      have hdiv : v / 16 < 16 ^ (k - 1) := by
        have h16 : 16 ^ k = 16 ^ (k - 1) * 16 := by
          conv_lhs => rw [show k = (k - 1) + 1 by omega]
          rw [pow_succ]
        omega
      have := ih (v / 16) (k - 1) (by omega) hdiv
      simp only [List.length_append, List.length_singleton]
      omega

theorem hexDigitsAux_length_pos (fuel v : Nat) : 1 ≤ (hexDigitsAux fuel v).length := by
  cases fuel with
  | zero => simp [hexDigitsAux]
  | succ fuel =>
    simp only [hexDigitsAux]
    split
    · simp
    · simp

theorem parseHexNat_append_single (s : List Char) (c : Char) :
    parseHexNat (s ++ [c]) = 16 * parseHexNat s + hexCharVal c := by
  simp [parseHexNat, List.foldl_append]

theorem hexCharVal_digitChar (d : Nat) (hd : d < 16) :
    hexCharVal (Nat.digitChar d) = d := by
  revert hd
  revert d
  decide

theorem parseHexNat_hexDigitsAux (fuel v : Nat) (h : v ≤ fuel) :
    parseHexNat (hexDigitsAux fuel v) = v := by
  induction fuel generalizing v with
  | zero =>
    have hv : v = 0 := by omega
    subst hv
    decide
  | succ fuel ih =>
    simp only [hexDigitsAux]
    split
    · rename_i hlt
      simp only [parseHexNat, List.foldl_cons, List.foldl_nil]
      rw [hexCharVal_digitChar v hlt]
      omega
    · rename_i hge
      rw [parseHexNat_append_single, ih (v / 16) (by omega),
        hexCharVal_digitChar (v % 16) (Nat.mod_lt _ (by omega))]
      omega

theorem parseHexNat_zero_pad (k : Nat) (s : List Char) :
    parseHexNat (List.replicate k '0' ++ s) = parseHexNat s := by
  induction k with
  | zero => simp
  | succ k ih =>
    simp only [List.replicate_succ, List.cons_append]
    show parseHexNat _ = _
    simp only [parseHexNat, List.foldl_cons] at ih ⊢
    have h0 : (16 * 0 + hexCharVal '0') = 0 := by decide
    simpa [h0] using ih

theorem parseHexNat_pyHexPad16 (v : Nat) : parseHexNat (pyHexPad16 v) = v := by
  rw [pyHexPad16, parseHexNat_zero_pad]
  exact parseHexNat_hexDigitsAux v v le_rfl

theorem pyHexPad16_length (v : Nat) (hv : v < 2 ^ 64) :
    (pyHexPad16 v).length = 16 := by
  have h1 : (hexDigitsAux v v).length ≤ 16 := by
    apply hexDigitsAux_length_le v v 16 (by omega)
    have : (16 : Nat) ^ 16 = 2 ^ 64 := by norm_num
    omega
  have h2 := hexDigitsAux_length_pos v v
  simp only [pyHexPad16, List.length_append, List.length_replicate]
  omega

theorem pyHexPad16_chars (v : Nat) :
    ∀ c ∈ pyHexPad16 v, isHexLowerChar c = true := by
  intro c hc
  simp only [pyHexPad16, List.mem_append, List.mem_replicate] at hc
  rcases hc with hc | hc
  · rw [hc.2]; decide
  · exact hexDigitsAux_chars v v c hc

-- Closed form of the zero-fill loop.

theorem padZeroLoop_eq (l : List Nat) :
    padZeroLoop l = l ++ List.replicate ((240 - l.length % 128) % 128) 0 := by
  generalize hn : (240 - l.length % 128) % 128 = n
  induction n using Nat.strong_induction_on generalizing l with
  | _ n ih =>
    rw [padZeroLoop]
    split
    · rename_i h112
      have : n = 0 := by omega
      subst this
      simp
    · rename_i h112
      have hpos : 1 ≤ n := by omega
      have hstep : (240 - (l ++ [0]).length % 128) % 128 = n - 1 := by
        simp only [List.length_append, List.length_singleton]
        omega
      rw [ih (n - 1) (by omega) (l ++ [0]) hstep]
      rw [List.append_assoc]
      congr 1
      show (0 : Nat) :: List.replicate (n - 1) 0 = List.replicate n 0
      rw [show n = (n - 1) + 1 by omega]
      simp [List.replicate_succ]

-- Chunking: mapping fixed-size windows over `List.range` and re-joining.

theorem range_chunks_join_aux {α : Type} (c : Nat) (l : List α) :
    ∀ m : Nat, ((List.range m).map fun k => (l.drop (c * k)).take c).flatten = l.take (c * m) := by
  intro m
  induction m with
  | zero => simp
  | succ m ih =>
    rw [List.range_succ, List.map_append, List.flatten_append, ih]
    simp only [List.map_cons, List.map_nil, List.flatten_cons, List.flatten_nil, List.append_nil]
    rw [Nat.mul_succ, List.take_add]

theorem range_chunks_join {α : Type} (c n : Nat) (l : List α) (h : l.length = c * n) :
    ((List.range n).map fun k => (l.drop (c * k)).take c).flatten = l := by
  rw [range_chunks_join_aux c l n, ← h, List.take_length]

theorem toBytesBE_eight_zero : toBytesBE 8 0 = List.replicate 8 0 := by decide

theorem pad_message_eq (m : List Nat) :
    pad_message m =
      m ++ [0x80] ++ List.replicate (numZeros m.length) 0 ++
        List.replicate 8 0 ++ toBytesBE 8 (m.length * 8) := by
  rw [pad_message, padZeroLoop_eq, toBytesBE_eight_zero]
  have hlen : (m ++ [0x80]).length = m.length + 1 := by simp
  rw [hlen]
  simp only [numZeros, List.append_assoc]

/-- C1: `pad_message m` is `m`, then a single `0x80` byte, then zero
bytes until the running length is 112 mod 128, then 8 zero bytes, then
the 8-byte big-endian encoding of `8 * len(m)`; hence its length is a
multiple of 128 and at least `len(m) + 17`.  The hypothesis keeps the
bit length inside the 8-byte range required by `int.to_bytes`. -/
theorem pad_message_structure (m : List Nat) (h : m.length * 8 < 2 ^ 64) :
    pad_message m =
      m ++ [0x80] ++ List.replicate (numZeros m.length) 0 ++
        List.replicate 8 0 ++ toBytesBE 8 (m.length * 8)
    ∧ (m.length + 1 + numZeros m.length) % 128 = 112
    ∧ (toBytesBE 8 (m.length * 8)).length = 8
    ∧ fromBytesBE (toBytesBE 8 (m.length * 8)) = m.length * 8
    ∧ (pad_message m).length % 128 = 0
    ∧ m.length + 17 ≤ (pad_message m).length := by
  have h112 : (m.length + 1 + numZeros m.length) % 128 = 112 := by
    simp only [numZeros]; omega
  have hlen8 : (toBytesBE 8 (m.length * 8)).length = 8 := toBytesBE_length 8 _
  have hpadlen : (pad_message m).length = m.length + 1 + numZeros m.length + 16 := by
    rw [pad_message_eq]
    simp [hlen8]
    omega
  refine ⟨pad_message_eq m, h112, hlen8, ?_, ?_, ?_⟩
  · exact fromBytesBE_toBytesBE 8 _ (by norm_num at h ⊢; omega)
  · omega
  · omega

/-- Witness for `pad_message_structure` at the empty message. -/
theorem pad_message_structure_witness :
    (0 : Nat) * 8 < 2 ^ 64 ∧
    (pad_message [] =
        [] ++ [0x80] ++ List.replicate (numZeros 0) 0 ++
          List.replicate 8 0 ++ toBytesBE 8 (0 * 8)
      ∧ (0 + 1 + numZeros 0) % 128 = 112
      ∧ (toBytesBE 8 (0 * 8)).length = 8
      ∧ fromBytesBE (toBytesBE 8 (0 * 8)) = 0 * 8
      ∧ (pad_message []).length % 128 = 0
      ∧ 0 + 17 ≤ (pad_message []).length) :=
  ⟨by norm_num, pad_message_structure [] (by norm_num)⟩

/-- C10: the zero-fill loop of `pad_message` terminates and appends
exactly `(112 - (len(m)+1) mod 128) mod 128` zero bytes, a count of at
most 127; `padZeroLoop` is total, defined by well-founded recursion on
the distance to the target residue. -/
theorem padZeroLoop_terminates_count (m : List Nat) :
    padZeroLoop (m ++ [0x80]) = (m ++ [0x80]) ++ List.replicate (numZeros m.length) 0
    ∧ (numZeros m.length : Int) = (112 - ((m.length : Int) + 1) % 128) % 128
    ∧ numZeros m.length ≤ 127 := by
  refine ⟨?_, ?_, ?_⟩
  · rw [padZeroLoop_eq]
    have hlen : (m ++ [0x80]).length = m.length + 1 := by simp
    rw [hlen]
    rfl
  · simp only [numZeros]; omega
  · simp only [numZeros]; omega

/-- C5: re-parsing each 16-character hex word of `bytes_to_hex_words`
and re-serializing each as 8 big-endian bytes reproduces any 128-byte
block exactly. -/
theorem bytes_to_hex_words_roundtrip (b : List Nat)
    (h1 : b.length = 128) (h2 : ∀ x ∈ b, x < 256) :
    ((bytes_to_hex_words b).map fun w => toBytesBE 8 (parseHexNat w)).flatten = b := by
  simp only [bytes_to_hex_words, h1]
  norm_num
  have hcongr : (List.range 16).map
        ((fun w => toBytesBE 8 (parseHexNat w)) ∘ fun k =>
          pyHexPad16 (fromBytesBE ((b.drop (8 * k)).take 8))) =
      (List.range 16).map fun k => (b.drop (8 * k)).take 8 := by
    apply List.map_congr_left
    intro k hk
    have hklt : k < 16 := List.mem_range.mp hk
    have hchunklen : ((b.drop (8 * k)).take 8).length = 8 := by
      simp only [List.length_take, List.length_drop, h1]
      omega
    have hchunkmem : ∀ x ∈ (b.drop (8 * k)).take 8, x < 256 := fun x hx =>
      h2 x (List.drop_subset _ _ (List.take_subset _ _ hx))
    have hval : fromBytesBE ((b.drop (8 * k)).take 8) < 256 ^ 8 := by
      have := fromBytesBE_lt _ hchunkmem
      rwa [hchunklen] at this
    simp only [Function.comp_apply, parseHexNat_pyHexPad16]
    calc toBytesBE 8 (fromBytesBE ((b.drop (8 * k)).take 8))
        = toBytesBE ((b.drop (8 * k)).take 8).length
            (fromBytesBE ((b.drop (8 * k)).take 8)) := by rw [hchunklen]
      _ = (b.drop (8 * k)).take 8 := toBytesBE_fromBytesBE _ hchunkmem
  rw [hcongr]
  exact range_chunks_join 8 16 b (by omega)

/-- Witness for `bytes_to_hex_words_roundtrip` on the all-zero block. -/
theorem bytes_to_hex_words_roundtrip_witness :
    (List.replicate 128 (0 : Nat)).length = 128
    ∧ (∀ x ∈ List.replicate 128 (0 : Nat), x < 256)
    ∧ ((bytes_to_hex_words (List.replicate 128 (0 : Nat))).map
        fun w => toBytesBE 8 (parseHexNat w)).flatten = List.replicate 128 (0 : Nat) :=
  ⟨by simp, by simp, bytes_to_hex_words_roundtrip _ (by simp) (by simp)⟩

/-- C6 counterexample: on an 8-byte input the spec demands a failure,
but `bytes_to_hex_words` succeeds and returns one 16-character word —
the code has no size check and no `InvalidBlockSizeError`. -/
theorem bytes_to_hex_words_no_size_check :
    encode_words_specOpt (List.replicate 8 0) = none
    ∧ bytes_to_hex_words (List.replicate 8 0) = [List.replicate 16 '0'] := by
  constructor
  · decide
  · decide

/-- C6 (amended): `bytes_to_hex_words` succeeds on every byte string;
on an exactly-128-byte input it returns exactly 16 words, and every
word it ever returns is exactly 16 lowercase hexadecimal characters. -/
theorem bytes_to_hex_words_shape (data : List Nat) (hb : ∀ x ∈ data, x < 256) :
    (data.length = 128 → (bytes_to_hex_words data).length = 16)
    ∧ ∀ w ∈ bytes_to_hex_words data,
        w.length = 16 ∧ ∀ c ∈ w, isHexLowerChar c = true := by
  constructor
  · intro h128
    simp [bytes_to_hex_words, h128]
  · intro w hw
    simp only [bytes_to_hex_words, List.mem_map] at hw
    obtain ⟨k, _, hweq⟩ := hw
    subst hweq
    have hchunkmem : ∀ x ∈ (data.drop (8 * k)).take 8, x < 256 := fun x hx =>
      hb x (List.drop_subset _ _ (List.take_subset _ _ hx))
    have hval : fromBytesBE ((data.drop (8 * k)).take 8) < 2 ^ 64 := by
      have h1 := fromBytesBE_lt _ hchunkmem
      have h2 : ((data.drop (8 * k)).take 8).length ≤ 8 := by
        simp [List.length_take]
      have h3 : (256 : Nat) ^ ((data.drop (8 * k)).take 8).length ≤ 256 ^ 8 :=
        Nat.pow_le_pow_right (by omega) h2
      have h4 : (256 : Nat) ^ 8 = 2 ^ 64 := by norm_num
      omega
    exact ⟨pyHexPad16_length _ hval, pyHexPad16_chars _⟩

/-- Witness for `bytes_to_hex_words_shape` on the all-zero block. -/
theorem bytes_to_hex_words_shape_witness :
    (∀ x ∈ List.replicate 128 (0 : Nat), x < 256)
    ∧ (((List.replicate 128 (0 : Nat)).length = 128 →
          (bytes_to_hex_words (List.replicate 128 (0 : Nat))).length = 16)
        ∧ ∀ w ∈ bytes_to_hex_words (List.replicate 128 (0 : Nat)),
            w.length = 16 ∧ ∀ c ∈ w, isHexLowerChar c = true) :=
  ⟨by simp, bytes_to_hex_words_shape _ (by simp)⟩

/-- C7 counterexample: on a 1-byte input the spec demands a failure,
but the code's slicing comprehension succeeds and returns one short
chunk — there is no length check and no `MalformedLengthError`. -/
theorem split_blocks_no_length_check :
    split_blocks_specOpt [0] = none ∧ split_blocks [0] = [[0]] := by
  constructor
  · decide
  · decide

/-- C7 (amended): the block-splitting comprehension never fails; when
the input length is a multiple of 128 it returns exactly the contiguous
128-byte windows in order, which concatenate back to the input. -/
theorem split_blocks_exact (l : List Nat) (h : l.length % 128 = 0) :
    (split_blocks l).length = l.length / 128
    ∧ (∀ b ∈ split_blocks l, b.length = 128)
    ∧ (split_blocks l).flatten = l
    ∧ ∀ k, k < l.length / 128 →
        (split_blocks l).getD k [] = (l.drop (128 * k)).take 128 := by
  have hn : (l.length + 127) / 128 = l.length / 128 := by omega
  refine ⟨?_, ?_, ?_, ?_⟩
  · simp [split_blocks, hn]
  · intro b hb
    simp only [split_blocks, List.mem_map] at hb
    obtain ⟨k, hk, hbeq⟩ := hb
    subst hbeq
    have hklt : k < l.length / 128 := by
      rw [hn] at hk
      exact List.mem_range.mp hk
    simp only [List.length_take, List.length_drop]
    omega
  · simp only [split_blocks, hn]
    exact range_chunks_join 128 (l.length / 128) l (by omega)
  · intro k hk
    simp only [split_blocks, hn]
    rw [List.getD_eq_getElem?_getD, List.getElem?_map, List.getElem?_range hk]
    rfl

/-- Witness for `split_blocks_exact` on a single all-zero block. -/
theorem split_blocks_exact_witness :
    (List.replicate 128 (0 : Nat)).length % 128 = 0
    ∧ ((split_blocks (List.replicate 128 (0 : Nat))).length =
          (List.replicate 128 (0 : Nat)).length / 128
        ∧ (∀ b ∈ split_blocks (List.replicate 128 (0 : Nat)), b.length = 128)
        ∧ (split_blocks (List.replicate 128 (0 : Nat))).flatten = List.replicate 128 (0 : Nat)
        ∧ ∀ k, k < (List.replicate 128 (0 : Nat)).length / 128 →
            (split_blocks (List.replicate 128 (0 : Nat))).getD k [] =
              ((List.replicate 128 (0 : Nat)).drop (128 * k)).take 128) :=
  ⟨by simp, split_blocks_exact _ (by simp)⟩

theorem pySplitAux_length_pos (sep : List Char) (fuel : Nat) :
    ∀ acc s, 1 ≤ (pySplitAux sep fuel acc s).length := by
  induction fuel with
  | zero =>
    intro acc s
    cases s <;> simp [pySplitAux]
  | succ fuel ih =>
    intro acc s
    cases s with
    | nil => simp [pySplitAux]
    | cons c rest =>
      rw [pySplitAux]
      split
      · simp
      · exact ih _ rest

theorem pySplitAux_two_of_contains (sep : List Char) (hsep : sep ≠ []) (fuel : Nat) :
    ∀ acc s, s.length ≤ fuel → containsTok sep s = true →
      2 ≤ (pySplitAux sep fuel acc s).length := by
  induction fuel with
  | zero =>
    intro acc s hlen hcon
    have hs : s = [] := by
      cases s with
      | nil => rfl
      | cons c rest => simp at hlen
    subst hs
    simp only [containsTok, List.isEmpty_iff] at hcon
    exact absurd hcon hsep
  | succ fuel ih =>
    intro acc s hlen hcon
    cases s with
    | nil =>
      simp only [containsTok, List.isEmpty_iff] at hcon
      exact absurd hcon hsep
    | cons c rest =>
      rw [pySplitAux]
      split
      · rename_i hpre
        simp only [List.length_cons]
        have := pySplitAux_length_pos sep fuel [] ((c :: rest).drop sep.length)
        omega
      · rename_i hpre
        have hnotpre : sep.isPrefixOf (c :: rest) = false := by
          by_contra hcontra
          exact hpre ⟨hsep, by simpa using hcontra⟩
        simp only [containsTok, hnotpre, Bool.false_or] at hcon
        exact ih _ rest (by simpa using Nat.le_of_succ_le_succ hlen) hcon

theorem pySplit_two_of_contains (sep s : List Char) (hsep : sep ≠ [])
    (hcon : containsTok sep s = true) : 2 ≤ (pySplit sep s).length :=
  pySplitAux_two_of_contains sep hsep s.length [] s le_rfl hcon

theorem parseLine_passed (r : ParsedResults) (l : List Char) :
    (parseLine r l).passed =
      if containsTok passTok l then r.passed + 1 else r.passed := by
  unfold parseLine
  by_cases hp : containsTok passTok l = true
  · simp [hp]
  · simp only [Bool.not_eq_true] at hp
    simp only [hp, Bool.false_eq_true, if_false]
    by_cases hf : containsTok failTok l = true
    · simp [hf]
    · simp only [Bool.not_eq_true] at hf
      simp only [hf, Bool.false_eq_true, if_false]
      by_cases hh : containsTok hashTok l = true
      · simp only [hh, if_true]
        split <;> rfl
      · simp only [Bool.not_eq_true] at hh
        simp [hh]

theorem parseLine_failed (r : ParsedResults) (l : List Char) :
    (parseLine r l).failed =
      if !containsTok passTok l && containsTok failTok l then r.failed + 1
      else r.failed := by
  unfold parseLine
  by_cases hp : containsTok passTok l = true
  · simp [hp]
  · simp only [Bool.not_eq_true] at hp
    simp only [hp, Bool.false_eq_true, if_false, Bool.not_false, Bool.true_and]
    by_cases hf : containsTok failTok l = true
    · simp [hf]
    · simp only [Bool.not_eq_true] at hf
      simp only [hf, Bool.false_eq_true, if_false]
      by_cases hh : containsTok hashTok l = true
      · simp only [hh, if_true]
        split <;> rfl
      · simp only [Bool.not_eq_true] at hh
        simp [hh]

theorem parseLine_hashes (r : ParsedResults) (l : List Char) :
    (parseLine r l).hashes =
      if !containsTok passTok l && !containsTok failTok l && containsTok hashTok l
      then r.hashes ++ [hashFieldOf l]
      else r.hashes := by
  unfold parseLine
  by_cases hp : containsTok passTok l = true
  · simp [hp]
  · simp only [Bool.not_eq_true] at hp
    simp only [hp, Bool.false_eq_true, if_false, Bool.not_false, Bool.true_and]
    by_cases hf : containsTok failTok l = true
    · simp [hf]
    · simp only [Bool.not_eq_true] at hf
      simp only [hf, Bool.false_eq_true, if_false, Bool.not_false, Bool.true_and]
      by_cases hh : containsTok hashTok l = true
      · have h2 : 1 < (pySplit hashTok l).length := by
          have := pySplit_two_of_contains hashTok l (by decide) hh
          omega
        simp only [hh, if_true, h2]
        rfl
      · simp only [Bool.not_eq_true] at hh
        simp [hh]

theorem foldl_parseLine_fields (lines : List (List Char)) :
    ∀ r : ParsedResults,
      (lines.foldl parseLine r).passed =
          r.passed + (lines.filter fun l => containsTok passTok l).length
      ∧ (lines.foldl parseLine r).failed =
          r.failed +
            (lines.filter fun l =>
              !containsTok passTok l && containsTok failTok l).length
      ∧ (lines.foldl parseLine r).hashes =
          r.hashes ++
            ((lines.filter fun l =>
                !containsTok passTok l && !containsTok failTok l &&
                  containsTok hashTok l).map hashFieldOf) := by
  induction lines with
  | nil => intro r; simp
  | cons l rest ih =>
    intro r
    obtain ⟨ih1, ih2, ih3⟩ := ih (parseLine r l)
    rw [List.foldl_cons]
    refine ⟨?_, ?_, ?_⟩
    · rw [ih1, parseLine_passed, List.filter_cons]
      by_cases hp : containsTok passTok l = true
      · simp only [hp, if_true, List.length_cons]
        omega
      · simp [hp]
    · rw [ih2, parseLine_failed, List.filter_cons]
      by_cases hc : (!containsTok passTok l && containsTok failTok l) = true
      · simp only [hc, if_true, List.length_cons]
        omega
      · simp [hc]
    · rw [ih3, parseLine_hashes, List.filter_cons]
      by_cases hc : (!containsTok passTok l && !containsTok failTok l &&
          containsTok hashTok l) = true <;> simp [hc]

/-- C4 (amended): the parser scans lines in order with the fixed
priority PASS, FAIL, `Hash:`; only the first match fires; a `Hash:`
line appends the field strictly between the first and second
occurrences of `"Hash:"` (to end of line if there is no second
occurrence), stripped of whitespace and lowercased — not the whole
remainder after the first occurrence.  The claim's concrete example
holds: `"PASS\nHash: AABB\nFAIL\n"` gives passed 1, failed 1, hashes
`["aabb"]`. -/
theorem parse_results_characterization (output : List Char) :
    (parse_results output).passed =
        ((pySplit ['\n'] output).filter fun l => containsTok passTok l).length
    ∧ (parse_results output).failed =
        ((pySplit ['\n'] output).filter fun l =>
          !containsTok passTok l && containsTok failTok l).length
    ∧ (parse_results output).hashes =
        ((pySplit ['\n'] output).filter fun l =>
          !containsTok passTok l && !containsTok failTok l &&
            containsTok hashTok l).map hashFieldOf
    ∧ parse_results ("PASS\nHash: AABB\nFAIL\n".toList) =
        ⟨1, 1, ["aabb".toList]⟩ := by
  obtain ⟨h1, h2, h3⟩ := foldl_parseLine_fields (pySplit ['\n'] output) ⟨0, 0, []⟩
  exact ⟨by simpa using h1, by simpa using h2, by simpa using h3, by decide⟩

/-- C4 counterexample: on the single line `"Hash: aaHash:bb"` the code
appends `"aa"`, the stripped-and-lowered text between the first and
second `"Hash:"` tokens, while the claim's rule (everything after the
first occurrence) would give `"aahash:bb"`. -/
theorem parse_results_between_tokens_cex :
    (parse_results ("Hash: aaHash:bb".toList)).hashes = ["aa".toList]
    ∧ pyLower (pyStrip (afterFirstTok hashTok ("Hash: aaHash:bb".toList))) =
        "aahash:bb".toList
    ∧ ("aa".toList ≠ "aahash:bb".toList) := by
  refine ⟨by decide, by decide, by decide⟩

theorem sum_map_const_nat {α : Type} (l : List α) (k : Nat) :
    (l.map fun _ => k).sum = k * l.length := by
  induction l with
  | nil => simp
  | cons x l ih => simp [ih, Nat.mul_succ]; ring

theorem bytes_to_hex_words_word_props (data : List Nat)
    (hb : ∀ x ∈ data, x < 256) :
    ∀ w ∈ bytes_to_hex_words data,
      w.length = 16 ∧ ∀ c ∈ w, isHexLowerChar c = true := by
  intro w hw
  simp only [bytes_to_hex_words, List.mem_map] at hw
  obtain ⟨k, _, hweq⟩ := hw
  subst hweq
  have hchunkmem : ∀ x ∈ (data.drop (8 * k)).take 8, x < 256 := fun x hx =>
    hb x (List.drop_subset _ _ (List.take_subset _ _ hx))
  have hval : fromBytesBE ((data.drop (8 * k)).take 8) < 2 ^ 64 := by
    have h1 := fromBytesBE_lt _ hchunkmem
    have h2 : ((data.drop (8 * k)).take 8).length ≤ 8 := by
      simp [List.length_take]
    have h3 : (256 : Nat) ^ ((data.drop (8 * k)).take 8).length ≤ 256 ^ 8 :=
      Nat.pow_le_pow_right (by omega) h2
    have h4 : (256 : Nat) ^ 8 = 2 ^ 64 := by norm_num
    omega
  exact ⟨pyHexPad16_length _ hval, pyHexPad16_chars _⟩

/-- C2: the vector file for a list of test cases is exactly the test
count line, then for each case in order its block count line, 16
sixteen-lowercase-hex-character lines per block, and six 16-character
digest lines sliced in order from the 96-character digest; nothing
else. -/
theorem write_test_vectors_grammar (cases : List TestCase)
    (hB : ∀ c ∈ cases, ∀ b ∈ c.blocks, b.length = 128 ∧ ∀ x ∈ b, x < 256)
    (hD : ∀ c ∈ cases, c.expected.length = 96) :
    write_test_vectors cases = natRepr cases.length :: (cases.map caseLines).flatten
    ∧ ∀ c ∈ cases,
        caseLines c = natRepr c.blocks.length ::
          ((c.blocks.map bytes_to_hex_words).flatten ++ digestLines c.expected)
        ∧ ((c.blocks.map bytes_to_hex_words).flatten).length = 16 * c.blocks.length
        ∧ (∀ w ∈ (c.blocks.map bytes_to_hex_words).flatten,
            w.length = 16 ∧ ∀ ch ∈ w, isHexLowerChar ch = true)
        ∧ (digestLines c.expected).length = 6
        ∧ (∀ k, k < 6 →
            (digestLines c.expected).getD k [] = (c.expected.drop (16 * k)).take 16)
        ∧ (∀ d ∈ digestLines c.expected, d.length = 16)
        ∧ (digestLines c.expected).flatten = c.expected := by
  refine ⟨rfl, ?_⟩
  intro c hc
  have hBc := hB c hc
  have hDc := hD c hc
  refine ⟨rfl, ?_, ?_, by simp [digestLines], ?_, ?_, ?_⟩
  · rw [List.length_flatten, List.map_map]
    have h16 : c.blocks.map (List.length ∘ bytes_to_hex_words) =
        c.blocks.map fun _ => 16 := by
      apply List.map_congr_left
      intro b hbmem
      have := (hBc b hbmem).1
      simp [Function.comp, bytes_to_hex_words, this]
    rw [h16, sum_map_const_nat]
  · intro w hw
    rw [List.mem_flatten] at hw
    obtain ⟨lw, hlw, hwmem⟩ := hw
    rw [List.mem_map] at hlw
    obtain ⟨b, hbmem, hlweq⟩ := hlw
    subst hlweq
    exact bytes_to_hex_words_word_props b (hBc b hbmem).2 w hwmem
  · intro k hk
    interval_cases k <;> rfl
  · intro d hd
    simp only [digestLines, List.map_cons, List.map_nil, List.mem_cons,
      List.not_mem_nil, or_false] at hd
    rcases hd with h | h | h | h | h | h <;>
      subst h <;> simp [List.length_take, List.length_drop, hDc]
  · have hdl : digestLines c.expected =
        (List.range 6).map fun k => (c.expected.drop (16 * k)).take 16 := rfl
    rw [hdl]
    exact range_chunks_join 16 6 c.expected (by omega)

/-- Witness for `write_test_vectors_grammar` on a single test case with
one all-zero block and an all-`'a'` digest. -/
theorem write_test_vectors_grammar_witness :
    (∀ c ∈ [TestCase.mk "t".toList [List.replicate 128 0] (List.replicate 96 'a')],
        ∀ b ∈ c.blocks, b.length = 128 ∧ ∀ x ∈ b, x < 256)
    ∧ (∀ c ∈ [TestCase.mk "t".toList [List.replicate 128 0] (List.replicate 96 'a')],
        c.expected.length = 96)
    ∧ (write_test_vectors [TestCase.mk "t".toList [List.replicate 128 0]
          (List.replicate 96 'a')] =
        natRepr 1 :: ([TestCase.mk "t".toList [List.replicate 128 0]
          (List.replicate 96 'a')].map caseLines).flatten
      ∧ ∀ c ∈ [TestCase.mk "t".toList [List.replicate 128 0] (List.replicate 96 'a')],
          caseLines c = natRepr c.blocks.length ::
            ((c.blocks.map bytes_to_hex_words).flatten ++ digestLines c.expected)
          ∧ ((c.blocks.map bytes_to_hex_words).flatten).length = 16 * c.blocks.length
          ∧ (∀ w ∈ (c.blocks.map bytes_to_hex_words).flatten,
              w.length = 16 ∧ ∀ ch ∈ w, isHexLowerChar ch = true)
          ∧ (digestLines c.expected).length = 6
          ∧ (∀ k, k < 6 →
              (digestLines c.expected).getD k [] = (c.expected.drop (16 * k)).take 16)
          ∧ (∀ d ∈ digestLines c.expected, d.length = 16)
          ∧ (digestLines c.expected).flatten = c.expected) :=
  ⟨by simp, by simp, write_test_vectors_grammar _ (by simp) (by simp)⟩

theorem foldl_and_eq_all {α : Type} (p : α → Bool) (l : List α) :
    ∀ init : Bool, l.foldl (fun acc x => acc && p x) init = (init && l.all p) := by
  induction l with
  | nil => intro init; simp
  | cons x l ih =>
    intro init
    rw [List.foldl_cons, ih, List.all_cons, Bool.and_assoc]

theorem all_match_iff (cases : List TestCase) (b f : RunOutcome) :
    all_match cases b f = true ↔
      ∀ i (hi : i < cases.length), statusOK b f i cases[i].expected = true := by
  unfold all_match
  rw [foldl_and_eq_all (fun ic => statusOK b f ic.1 ic.2.expected) cases.enum true]
  simp only [Bool.true_and, List.all_eq_true]
  exact List.forall_mem_enum

/-- C3: index `i` is marked OK iff, for each variant, `i` is within the
parsed hash list and the `i`-th hash equals the expected digest; and
the harness exits 0 (all match) iff every index is OK and neither
variant's results dict carries an `"error"` marker, else it exits 1. -/
theorem reconcile_verdict (cases : List TestCase) (b f : RunOutcome) :
    (∀ (i : Nat) (expected : List Char),
      statusOK b f i expected = true ↔
        ((i < (getHashes b).length ∧ (getHashes b).getD i [] = expected)
          ∧ (i < (getHashes f).length ∧ (getHashes f).getD i [] = expected)))
    ∧ (mainExitCode cases b f = 0 ↔
        ((∀ i (hi : i < cases.length), statusOK b f i cases[i].expected = true)
          ∧ hasError b = false ∧ hasError f = false)) := by
  constructor
  · intro i expected
    simp [statusOK, variantOk]
  · have hcond : (all_match cases b f && !(hasError b || hasError f)) = true ↔
        ((∀ i (hi : i < cases.length), statusOK b f i cases[i].expected = true)
          ∧ hasError b = false ∧ hasError f = false) := by
      rw [Bool.and_eq_true, all_match_iff]
      simp
    unfold mainExitCode
    split
    · rename_i h
      simp only [true_iff]
      exact hcond.mp h
    · rename_i h
      constructor
      · intro h10
        exact absurd h10 (by omega)
      · intro hrhs
        exact absurd (hcond.mpr hrhs) h

/-- C9: a non-zero compile exit makes `run_vhdl_test` return the
`Compile failed` error dict with the captured stderr, invoking only the
compile phase; with compile succeeding, a non-zero elaborate exit
returns the `Elaborate failed` error dict and the run phase is never
invoked. -/
theorem run_vhdl_failure_short_circuit (c e : ProcResult) (r : RunPhaseOutcome) :
    (c.returncode ≠ 0 →
      run_vhdl_test c e r =
        (Except.ok (RunOutcome.err ("Compile failed: ".toList ++ c.stderr)),
          [Phase.compileP]))
    ∧ (c.returncode = 0 → e.returncode ≠ 0 →
      run_vhdl_test c e r =
        (Except.ok (RunOutcome.err ("Elaborate failed: ".toList ++ e.stderr)),
          [Phase.compileP, Phase.elaborateP])) := by
  constructor
  · intro hc
    simp [run_vhdl_test, hc]
  · intro hc he
    simp [run_vhdl_test, hc, he]

/-- Witness for `run_vhdl_failure_short_circuit` at concrete process
results. -/
theorem run_vhdl_failure_short_circuit_witness :
    ((ProcResult.mk 1 [] "boom".toList).returncode ≠ 0
      ∧ run_vhdl_test (ProcResult.mk 1 [] "boom".toList) (ProcResult.mk 0 [] [])
          RunPhaseOutcome.timedOut =
        (Except.ok (RunOutcome.err ("Compile failed: ".toList ++ "boom".toList)),
          [Phase.compileP]))
    ∧ ((ProcResult.mk 0 [] []).returncode = 0
      ∧ (ProcResult.mk 1 [] "bad".toList).returncode ≠ 0
      ∧ run_vhdl_test (ProcResult.mk 0 [] []) (ProcResult.mk 1 [] "bad".toList)
          RunPhaseOutcome.timedOut =
        (Except.ok (RunOutcome.err ("Elaborate failed: ".toList ++ "bad".toList)),
          [Phase.compileP, Phase.elaborateP])) :=
  ⟨⟨by decide, (run_vhdl_failure_short_circuit _ _ _).1 (by decide)⟩,
    ⟨rfl, by decide, (run_vhdl_failure_short_circuit _ _ _).2 rfl (by decide)⟩⟩

/-- C8: when compile and elaborate succeed and the run phase hits the
30-second timeout, `run_vhdl_test` does not return a per-variant
timeout failure — the `subprocess.TimeoutExpired` exception escapes
uncaught, and in `main` it aborts the run section, so the other
variant's results are never produced or reported.  This contradicts the
claim, which the spec states as the intent. -/
theorem run_vhdl_timeout_uncaught (cb eb cf ef : ProcResult)
    (rf : RunPhaseOutcome) (hc : cb.returncode = 0) (he : eb.returncode = 0) :
    run_vhdl_test cb eb RunPhaseOutcome.timedOut =
      (Except.error PyExn.timeoutExpired,
        [Phase.compileP, Phase.elaborateP, Phase.runP])
    ∧ mainRunSection cb eb RunPhaseOutcome.timedOut cf ef rf =
        Except.error PyExn.timeoutExpired := by
  have h1 : run_vhdl_test cb eb RunPhaseOutcome.timedOut =
      (Except.error PyExn.timeoutExpired,
        [Phase.compileP, Phase.elaborateP, Phase.runP]) := by
    simp [run_vhdl_test, hc, he]
  refine ⟨h1, ?_⟩
  simp only [mainRunSection, h1]
  rfl

/-- Witness for `run_vhdl_timeout_uncaught` at concrete process
results. -/
theorem run_vhdl_timeout_uncaught_witness :
    (ProcResult.mk 0 [] []).returncode = 0
    ∧ (ProcResult.mk 0 [] []).returncode = 0
    ∧ (run_vhdl_test (ProcResult.mk 0 [] []) (ProcResult.mk 0 [] [])
          RunPhaseOutcome.timedOut =
        (Except.error PyExn.timeoutExpired,
          [Phase.compileP, Phase.elaborateP, Phase.runP])
      ∧ mainRunSection (ProcResult.mk 0 [] []) (ProcResult.mk 0 [] [])
          RunPhaseOutcome.timedOut (ProcResult.mk 0 [] []) (ProcResult.mk 0 [] [])
          RunPhaseOutcome.timedOut =
        Except.error PyExn.timeoutExpired) :=
  ⟨rfl, rfl,
    run_vhdl_timeout_uncaught (ProcResult.mk 0 [] []) (ProcResult.mk 0 [] [])
      (ProcResult.mk 0 [] []) (ProcResult.mk 0 [] [])
      RunPhaseOutcome.timedOut rfl rfl⟩
